import Mathlib

/-!
Shallow embedding of the tenexlog core (TSV log parsing and anomaly
detection) and proofs of the specification claims about it.

Source files embedded:
- `internal/parse/tsv.go`   : `ParseTSV` (summary + per-minute timeline)
- `internal/parse/rows.go`  : `ParseTSVRows` (summary + timeline + row sample)
- `internal/analyze/rate.go`: `DetectRateSpikes`
- `internal/analyze/sensitive.go` : `DetectSensitivePaths`
- `internal/upload/handler.go`    : anomaly merge and cap

Modelling conventions:
- `time.Time` is modelled as `ℤ` (an absolute instant, e.g. seconds); the Go
  zero time is `0` and `IsZero` is `= 0`.  `UTC()` is the identity (our
  instants are already absolute).  `Truncate(time.Minute)` is flooring to a
  multiple of 60 (`minuteOf`).
- Go `float64` arithmetic is idealised as exact arithmetic: values that the
  code derives by field operations on integer counts are modelled in `ℚ`
  (mean, variance, thresholds), and genuinely transcendental values
  (`math.Sqrt`, `math.Exp`) in `ℝ`.
- A Go map is an unordered container: every function that iterates a map
  takes the iteration order as an explicit `List String` argument
  (`ipOrder`), and theorems quantify over all permutations of the key set.
- A Go slice that can be `nil` is modelled as `Option (List _)` where
  `none` is the nil slice (`ParseTSV`'s timeline result, the merged anomaly
  slice).
- An input file is `Option (List String)`: `none` means the file cannot be
  opened, `some lines` is its list of newline-delimited lines.
- `time.Parse(time.RFC3339, ·)` and `strconv.Atoi` / `strconv.ParseInt` are
  taken as parameters (`pTS`, `pStatus`, `pBytes` : `String → Option ℤ`):
  the claims depend only on whether a field parses, never on how; theorems
  hold for every such parser.
- `strings.Split`, `strings.ToLower` and `strings.HasPrefix` are given
  executable char-list implementations (`splitTab`, `goToLower`,
  `goStartsWith`).
-/

/-- Splits a character list at every occurrence of `sep`
(the semantics of Go `strings.Split` on a single-character separator). -/
def splitOnChar (sep : Char) : List Char → List (List Char)
  | [] => [[]]
  | c :: rest =>
    let r := splitOnChar sep rest
    if c = sep then [] :: r
    else
      match r with
      | [] => [[c]]
      | h :: t => (c :: h) :: t

/-- Go `strings.Split(line, "\t")`. -/
def splitTab (s : String) : List String :=
  (splitOnChar '\t' s.data).map String.mk

/-- Go `strings.ToLower` (sufficient for ASCII path data). -/
def goToLower (s : String) : String :=
  String.mk (s.data.map Char.toLower)

/-- Go `strings.HasPrefix s pre`. -/
def goStartsWith (s pre : String) : Bool :=
  pre.data.isPrefixOf s.data

/-- Go `t.Truncate(time.Minute)`: floor `t` to a multiple of 60 seconds. -/
def minuteOf (t : ℤ) : ℤ := 60 * (Int.ediv t 60)

/-- Maximum line length accepted by the scanner (`maxLine = 1024*1024` in
both `tsv.go` and `rows.go`); a longer line makes the scan fail. -/
def maxLineLen : ℕ := 1024 * 1024

/-- A parsed log row (`parse.Event` in `rows.go`). -/
structure Event where
  ts : ℤ
  srcIP : String
  dst : String
  method : String
  path : String
  status : ℤ
  bytes : ℤ
  ua : String
  deriving DecidableEq, Repr

/-- `parse.Summary` (`tsv.go`): `startT`/`endT` are the `Start`/`End`
fields. -/
structure Summary where
  lines : ℕ
  uniqueIPs : ℕ
  startT : ℤ
  endT : ℤ
  deriving DecidableEq, Repr

/-- The zero value `Summary{}` returned on failure. -/
def zeroSummary : Summary := ⟨0, 0, 0, 0⟩

/-- `parse.Bucket` (`tsv.go`): one minute of the activity timeline. -/
structure Bucket where
  t : ℤ
  count : ℕ
  deriving DecidableEq, Repr

/-- The two ways `ParseTSV` can fail: the source cannot be opened
(`os.Open` error) or the scanner hit an over-long line
(`bufio.ErrTooLong`). -/
inductive ParseErr where
  | openErr
  | tooLong
  deriving DecidableEq, Repr

/-- Mutable state of the scan loop in `ParseTSV` (`tsv.go` lines 24-71):
line counter, the set of source IPs seen (as a duplicate-free list), the
running `Start`/`End` timestamps and the per-minute count map (as an
association list with duplicate-free keys). -/
structure ScanState where
  lineCount : ℕ
  seen : List String
  startT : ℤ
  endT : ℤ
  minuteCounts : List (ℤ × ℕ)
  deriving DecidableEq, Repr

/-- Initial scan state. -/
def initScan : ScanState := ⟨0, [], 0, 0, []⟩

/-- `minuteCounts[min]++`: bump the count stored for key `k`, inserting the
key if absent. -/
def bumpCount : List (ℤ × ℕ) → ℤ → List (ℤ × ℕ)
  | [], k => [(k, 1)]
  | (k', n) :: rest, k =>
    if k' = k then (k', n + 1) :: rest else (k', n) :: bumpCount rest k

/-- Body of the scan loop of `ParseTSV` for one line (tsv.go lines 46-71):
skip lines with fewer than two tab-separated fields, skip lines whose
timestamp does not parse, otherwise update `Start`/`End` (with the Go
`IsZero() || Before/After` rule), record the source IP, and bump the
per-minute count for the truncated timestamp. -/
def scanStep (pTS : String → Option ℤ) (line : String) (st : ScanState) : ScanState :=
  let parts := splitTab line
  if parts.length < 2 then st
  else
    match pTS (parts.getD 0 "") with
    | none => st
    | some ts =>
      let st1 : ScanState :=
        { st with
          startT := if st.startT = 0 ∨ ts < st.startT then ts else st.startT,
          endT := if st.endT = 0 ∨ st.endT < ts then ts else st.endT }
      let src := parts.getD 1 ""
      let st2 : ScanState :=
        { st1 with seen := if src ∈ st1.seen then st1.seen else src :: st1.seen }
      { st2 with minuteCounts := bumpCount st2.minuteCounts (minuteOf ts) }

/-- The scan loop of `ParseTSV` (`for sc.Scan() { ... }`, tsv.go lines
39-74).  `none` models `sc.Err() != nil` (a line longer than `maxLine`);
counting a line and then breaking once the cap is exceeded mirrors
`sum.Lines++; if maxRows > 0 && sum.Lines > maxRows { break }`. -/
def scanTSV (pTS : String → Option ℤ) (maxRows : ℤ) :
    List String → ScanState → Option ScanState
  | [], st => some st
  | line :: rest, st =>
    if maxLineLen < line.utf8ByteSize then none
    else
      let st' : ScanState := { st with lineCount := st.lineCount + 1 }
      if 0 < maxRows ∧ maxRows < (st'.lineCount : ℤ) then some st'
      else scanTSV pTS maxRows rest (scanStep pTS line st')

/-- Ordering used to sort timeline keys ascending (`keys[i].Before(keys[j])`
in tsv.go lines 85-87, as a non-strict total order for the sort). -/
def pairLE (a b : ℤ × ℕ) : Prop := a.1 ≤ b.1

instance : DecidableRel pairLE := fun a b => inferInstanceAs (Decidable (a.1 ≤ b.1))

instance : IsTotal (ℤ × ℕ) pairLE := ⟨fun a b => le_total a.1 b.1⟩

instance : IsTrans (ℤ × ℕ) pairLE := ⟨fun _ _ _ h h' => le_trans h h'⟩

/-- Build the time-ordered timeline from the minute-count map (tsv.go lines
81-94): sort the (duplicate-free) keys ascending and emit one bucket per
key. -/
def timelineOf (mc : List (ℤ × ℕ)) : List Bucket :=
  (mc.insertionSort pairLE).map (fun p => ⟨p.1, p.2⟩)

/-- Result triple of `ParseTSV` (`(Summary, []Bucket, error)`); the
timeline is `Option` because Go returns a nil slice both on failure and
when no minute bucket exists. -/
structure TSVOut where
  summary : Summary
  timeline : Option (List Bucket)
  err : Option ParseErr
  deriving DecidableEq, Repr

/-- `parse.ParseTSV` (tsv.go lines 23-97). -/
def ParseTSV (pTS : String → Option ℤ) (src : Option (List String)) (maxRows : ℤ) : TSVOut :=
  match src with
  | none => ⟨zeroSummary, none, some .openErr⟩
  | some lines =>
    match scanTSV pTS maxRows lines initScan with
    | none => ⟨zeroSummary, none, some .tooLong⟩
    | some st =>
      let sum : Summary := ⟨st.lineCount, st.seen.length, st.startT, st.endT⟩
      if st.minuteCounts = [] then ⟨sum, none, none⟩
      else ⟨sum, some (timelineOf st.minuteCounts), none⟩

/-- The field parsers `ParseTSVRows` depends on: `time.Parse(RFC3339, ·)`,
`strconv.Atoi` (status) and `strconv.ParseInt` (bytes). -/
structure FieldParsers where
  pTS : String → Option ℤ
  pStatus : String → Option ℤ
  pBytes : String → Option ℤ

/-- Row parsing in `ParseTSVRows` (rows.go lines 72-112): positional
tab-separated fields, any missing or unparsable field left at its zero
value. -/
def parseEventLine (P : FieldParsers) (line : String) : Event :=
  let parts := splitTab line
  { ts := ((P.pTS (parts.getD 0 "")).getD 0)
    srcIP := parts.getD 1 ""
    dst := parts.getD 2 ""
    method := parts.getD 3 ""
    path := parts.getD 4 ""
    status := ((P.pStatus (parts.getD 5 "")).getD 0)
    bytes := ((P.pBytes (parts.getD 6 "")).getD 0)
    ua := parts.getD 7 "" }

/-- The second scan of `ParseTSVRows` (rows.go lines 66-118): count every
scanned line in `seen`, break past the scan cap, and retain a parsed row
while under the retain cap (`keepRows <= 0 || len(rows) < keepRows`).
`none` models a scanner failure on an over-long line. -/
def sampleLoop (P : FieldParsers) (maxRows keepRows : ℤ) :
    List String → ℕ → List Event → Option (List Event)
  | [], _, acc => some acc
  | line :: rest, seen, acc =>
    if maxLineLen < line.utf8ByteSize then none
    else
      let seen' := seen + 1
      if 0 < maxRows ∧ maxRows < (seen' : ℤ) then some acc
      else
        let acc' := if keepRows ≤ 0 ∨ (acc.length : ℤ) < keepRows
                    then acc ++ [parseEventLine P line] else acc
        sampleLoop P maxRows keepRows rest seen' acc'

/-- Result of `ParseTSVRows` (`(Summary, []Bucket, []Event, error)`). -/
structure RowsOut where
  summary : Summary
  timeline : Option (List Bucket)
  rows : List Event
  err : Option ParseErr
  deriving DecidableEq, Repr

/-- `parse.ParseTSVRows` (rows.go lines 45-124): first pass is `ParseTSV`,
second pass re-reads the same source and materialises at most `keepRows`
events. -/
def ParseTSVRows (P : FieldParsers) (src : Option (List String)) (maxRows keepRows : ℤ) : RowsOut :=
  match src with
  | none => ⟨zeroSummary, none, [], some .openErr⟩
  | some lines =>
    let first := ParseTSV P.pTS (some lines) maxRows
    match first.err with
    | some e => ⟨zeroSummary, none, [], some e⟩
    | none =>
      match sampleLoop P maxRows keepRows lines 0 [] with
      | none => ⟨zeroSummary, none, [], some .tooLong⟩
      | some rows => ⟨first.summary, first.timeline, rows, none⟩

/-- An event enters the rate baseline iff it has a source IP and a
timestamp (rate.go lines 31-34: `ev.SrcIP == "" || ev.TS.IsZero()` skips). -/
def evValid (e : Event) : Bool := e.srcIP != "" && e.ts != 0

/-- `perMin[{ip, m}]`: number of valid events of `ip` in minute `m`
(rate.go lines 35-38). -/
def countOf (rows : List Event) (ip : String) (m : ℤ) : ℕ :=
  (rows.filter (fun e => evValid e && e.srcIP == ip && minuteOf e.ts == m)).length

/-- `uniqueSorted` (rate.go lines 108-120): ascending duplicate-free list. -/
def uniqueSorted (l : List ℤ) : List ℤ :=
  (l.insertionSort (· ≤ ·)).dedup

/-- `perIPMinutes[ip]` after `uniqueSorted` (rate.go lines 38-43): the
distinct minutes in which `ip` has a valid event, ascending. -/
def minutesOf (rows : List Event) (ip : String) : List ℤ :=
  uniqueSorted ((rows.filter (fun e => evValid e && e.srcIP == ip)).map (fun e => minuteOf e.ts))

/-- `cnt` (rate.go lines 52-55): the per-minute counts backing `ip`'s
baseline. -/
def ipCounts (rows : List Event) (ip : String) : List ℚ :=
  (minutesOf rows ip).map (fun m => (countOf rows ip m : ℚ))

/-- Mean of `meanStd` (rate.go lines 122-138); the empty case yields 0 as
in the source. -/
def meanQ (xs : List ℚ) : ℚ :=
  if xs = [] then 0 else xs.sum / (xs.length : ℚ)

/-- The `ssq / n` under the square root in `meanStd`. -/
def varQ (xs : List ℚ) : ℚ :=
  if xs = [] then 0
  else ((xs.map (fun x => (x - meanQ xs) * (x - meanQ xs))).sum) / (xs.length : ℚ)

/-- Baseline mean for `ip` (`mean` in rate.go line 56). -/
def ipMean (rows : List Event) (ip : String) : ℚ := meanQ (ipCounts rows ip)

/-- Baseline standard deviation for `ip` (`std` in rate.go line 56,
`math.Sqrt(ssq / n)`). -/
noncomputable def ipStd (rows : List Event) (ip : String) : ℝ :=
  Real.sqrt ((varQ (ipCounts rows ip) : ℚ) : ℝ)

/-- Go `math.Round(x*100) / 100` (rate.go lines 140-142); `math.Round`
rounds half away from zero. -/
noncomputable def round2R (x : ℝ) : ℝ :=
  (if x < 0 then -(⌊-(x * 100) + 1 / 2⌋ : ℝ) else (⌊x * 100 + 1 / 2⌋ : ℝ)) / 100

/-- Confidence squash of `DetectRateSpikes` (rate.go lines 77-83): the
exponential squash, the cap at 1, and the floor at 0.8 applied when
`std == 0`. -/
noncomputable def rateConf (std z : ℝ) : ℝ :=
  let conf := 1 - Real.exp (-z / 3)
  let conf := if 1 < conf then 1 else conf
  if std = 0 ∧ conf < 0.8 then 0.8 else conf

/-- `analyze.Anomaly` (rate.go lines 12-21); the human-readable `Reason`
string is presentational and not modelled. -/
structure Anomaly where
  Kind : String
  SrcIP : String
  Minute : ℤ
  Count : ℤ
  Baseline : ℝ
  Z : ℝ
  Confidence : ℝ

/-- The anomaly record appended for a flagged `(ip, minute)` pair
(rate.go lines 87-96), given the raw count `c`, baseline `mean`, the
branch's z value and `std` for the confidence squash. -/
noncomputable def rateRecord (ip : String) (m : ℤ) (c : ℚ) (mean : ℚ) (std z : ℝ) : Anomaly :=
  { Kind := "rate_spike"
    SrcIP := ip
    Minute := m
    Count := (c.num / c.den : ℤ)
    Baseline := round2R ((mean : ℝ))
    Z := round2R z
    Confidence := round2R (rateConf std z) }

/-- Descending-by-minute order used on the rate anomaly list
(`out[i].Minute.After(out[j].Minute)` in rate.go line 100), as the
non-strict total order backing a stable sort. -/
def rateGE (a b : Anomaly) : Prop := b.Minute ≤ a.Minute

instance : DecidableRel rateGE := fun a b => inferInstanceAs (Decidable (b.Minute ≤ a.Minute))

instance : IsTotal Anomaly rateGE := ⟨fun a b => le_total b.Minute a.Minute⟩

instance : IsTrans Anomaly rateGE := ⟨fun _ _ _ h h' => le_trans h' h⟩

/-- The key set of `perIPMinutes` (rate.go line 48): the distinct source
IPs with at least one valid event, in first-appearance order; an
`ipOrder` argument to `DetectRateSpikes` stands for one iteration order of
this map and theorems quantify over its permutations. -/
def rateIPs (rows : List Event) : List String :=
  ((rows.filter evValid).map (fun e => e.srcIP)).dedup

/-- `analyze.DetectRateSpikes` (rate.go lines 23-106): `ipOrder` is the
map iteration order over `perIPMinutes`; `ratePerIP` is the
inner loop body for one IP (rate.go lines 48-98): the per-minute baseline
`mean`/`std` is computed and each minute's count is tested by the floor,
the z-score / multiplier rule (`std > 0`) or the degenerate rule
(`std == 0`). -/
noncomputable def ratePerIP (rows : List Event) (ip : String) : List Anomaly :=
  let mean := ipMean rows ip
  let std := ipStd rows ip
  (minutesOf rows ip).filterMap (fun m =>
    let c : ℚ := (countOf rows ip m : ℚ)
    if c < 10 then none
    else if 0 < std then
      let z : ℝ := ((c : ℝ) - (mean : ℝ)) / std
      if 2 ≤ z ∨ ((max (⌈(5 / 2 : ℚ) * mean⌉ : ℚ) 10)) ≤ c then
        some (rateRecord ip m c mean std z)
      else none
    else
      if 0 < mean ∧ (5 / 2 : ℚ) * mean ≤ c ∧ 10 ≤ c then
        some (rateRecord ip m c mean std 3)
      else none)

/-- `analyze.DetectRateSpikes` proper: concatenate the per-IP anomalies in
map iteration order, sort newest-minute-first, and truncate to `keepTop`
when positive. -/
noncomputable def DetectRateSpikes (rows : List Event) (keepTop : ℤ) (ipOrder : List String) : List Anomaly :=
  let out := ipOrder.flatMap (ratePerIP rows)
  let sorted := out.insertionSort rateGE
  if 0 < keepTop ∧ keepTop < (sorted.length : ℤ) then sorted.take keepTop.toNat
  else sorted

/-- `analyze.SensitivityList` (sensitive.go lines 20-24). -/
def SensitivityList : List String :=
  ["/admin", "/login", "/wp-admin", "/wp-login", "/xmlrpc.php",
   "/.git", "/.env", "/.DS_Store", "/.well-known", "/server-status",
   "/phpmyadmin", "/manager", "/actuator", "/console"]

/-- The first sensitive pattern (lower-cased) that the lower-cased path
starts with, if any (sensitive.go lines 47-65: first match wins). -/
def matchFor (path : String) : Option String :=
  (SensitivityList.map goToLower).find? (fun pre => goStartsWith (goToLower path) pre)

/-- An event enters the sensitive-path scan iff it has a source IP, a path
and a timestamp (sensitive.go lines 54-57). -/
def sensValid (e : Event) : Bool := e.srcIP != "" && e.path != "" && e.ts != 0

/-- The events of `ip` that hit some sensitive pattern (the updates to
`ipToCounts[ip]` in sensitive.go lines 66-81). -/
def sensEvents (rows : List Event) (ip : String) : List Event :=
  rows.filter (fun e => sensValid e && e.srcIP == ip && (matchFor e.path).isSome)

/-- `hits`: total sensitive hits of `ip` (sum of `ipToCounts[ip]`,
sensitive.go lines 86-92). -/
def sensHits (rows : List Event) (ip : String) : ℕ := (sensEvents rows ip).length

/-- `uniq`: number of distinct sensitive patterns `ip` matched
(cardinality of `ipToCounts[ip]`, sensitive.go lines 86-89). -/
def sensUniq (rows : List Event) (ip : String) : ℕ :=
  (((sensEvents rows ip).filterMap (fun e => matchFor e.path)).dedup).length

/-- `ipFirst[ip]` (sensitive.go lines 74-77): earliest sensitive-hit
timestamp of `ip` (0 when `ip` has none). -/
def sensFirst (rows : List Event) (ip : String) : ℤ :=
  match (sensEvents rows ip).map (fun e => e.ts) with
  | [] => 0
  | t :: ts => ts.foldl min t

/-- `ipLast[ip]` (sensitive.go lines 78-80): latest sensitive-hit
timestamp of `ip`. -/
def sensLast (rows : List Event) (ip : String) : ℤ :=
  match (sensEvents rows ip).map (fun e => e.ts) with
  | [] => 0
  | t :: ts => ts.foldl max t

/-- `analyze.AnomalySensitive` (sensitive.go lines 27-36); the `Reason`
string is presentational and not modelled. -/
structure AnomalySensitive where
  Kind : String
  SrcIP : String
  FirstSeen : ℤ
  LastSeen : ℤ
  Hits : ℕ
  UniquePref : ℕ
  Confidence : ℝ

/-- The record emitted for a qualifying IP (sensitive.go lines 93-107);
confidence is `1 - exp(-hits/10)` rounded to two decimals. -/
noncomputable def sensRecord (rows : List Event) (ip : String) : AnomalySensitive :=
  { Kind := "sensitive_paths"
    SrcIP := ip
    FirstSeen := sensFirst rows ip
    LastSeen := sensLast rows ip
    Hits := sensHits rows ip
    UniquePref := sensUniq rows ip
    Confidence := round2R (1 - Real.exp (-((sensHits rows ip : ℝ)) / 10)) }

/-- Descending-by-last-seen order on sensitive anomalies
(`out[i].LastSeen.After(out[j].LastSeen)` in sensitive.go line 111), as
the non-strict total order backing a stable sort. -/
def sensGE (a b : AnomalySensitive) : Prop := b.LastSeen ≤ a.LastSeen

instance : DecidableRel sensGE := fun a b => inferInstanceAs (Decidable (b.LastSeen ≤ a.LastSeen))

instance : IsTotal AnomalySensitive sensGE := ⟨fun a b => le_total b.LastSeen a.LastSeen⟩

instance : IsTrans AnomalySensitive sensGE := ⟨fun _ _ _ h h' => le_trans h' h⟩

/-- The key set of `ipToCounts` (sensitive.go line 85): distinct source
IPs with at least one sensitive hit; an `ipOrder` argument to
`DetectSensitivePaths` stands for one iteration order of this map. -/
def sensIPs (rows : List Event) : List String :=
  ((rows.filter (fun e => sensValid e && (matchFor e.path).isSome)).map (fun e => e.srcIP)).dedup

/-- `analyze.DetectSensitivePaths` (sensitive.go lines 40-113).  `ipOrder`
is the map iteration order over `ipToCounts`; an IP qualifies when
`hits >= minHits || uniq >= minUnique`; output is sorted newest-last-seen
first. -/
noncomputable def DetectSensitivePaths (rows : List Event) (minHits minUnique : ℤ) (ipOrder : List String) : List AnomalySensitive :=
  let out := ipOrder.filterMap (fun ip =>
    if minHits ≤ (sensHits rows ip : ℤ) ∨ minUnique ≤ (sensUniq rows ip : ℤ) then
      some (sensRecord rows ip)
    else none)
  out.insertionSort sensGE

/-- The union row `anyAnom` of `upload/handler.go` (lines 18-31); fields
not applicable to a kind stay `none`, `Reason` is not modelled. -/
structure AnyAnom where
  kind : String
  srcIp : String
  minute : Option ℤ
  firstSeen : Option ℤ
  lastSeen : Option ℤ
  count : Option ℤ
  baseline : Option ℝ
  z : Option ℝ
  hits : Option ℕ
  uniquePref : Option ℕ
  confidence : ℝ

/-- Mapping of a rate anomaly into the union shape (handler.go lines
118-133). -/
def rateToAny (a : Anomaly) : AnyAnom :=
  ⟨a.Kind, a.SrcIP, some a.Minute, none, none, some a.Count, some a.Baseline,
   some a.Z, none, none, a.Confidence⟩

/-- Mapping of a sensitive-path anomaly into the union shape (handler.go
lines 136-149). -/
def sensToAny (s : AnomalySensitive) : AnyAnom :=
  ⟨s.Kind, s.SrcIP, none, some s.FirstSeen, some s.LastSeen, none, none,
   none, some s.Hits, some s.UniquePref, s.Confidence⟩

/-- `maxAnoms` (handler.go line 104): cap on merged anomalies. -/
def maxAnoms : ℕ := 50

/-- The merge of both detectors' outputs in the upload handler
(handler.go lines 114-159).  `Option` models Go slice nil-ness: the
`make`-initialised slice is the non-nil `some`, appends keep it non-nil,
the truncation keeps the first `maxAnoms` elements, and the final
`if merged == nil` guard replaces a nil slice by an explicit empty one. -/
def mergeAnomalies (rateAnoms : List Anomaly) (sensAnoms : List AnomalySensitive) : Option (List AnyAnom) :=
  let merged : Option (List AnyAnom) :=
    some (rateAnoms.map rateToAny ++ sensAnoms.map sensToAny)
  let merged : Option (List AnyAnom) :=
    merged.map (fun l => if maxAnoms < l.length then l.take maxAnoms else l)
  match merged with
  | none => some []
  | some l => some l

/-! ### Derived descriptions of the scan used in theorem statements -/

/-- A line contributes to summary/timeline aggregation iff it has at least
two tab-separated fields and its first field parses as a timestamp
(tsv.go lines 46-54). -/
def lineParses (pTS : String → Option ℤ) (l : String) : Prop :=
  2 ≤ (splitTab l).length ∧ (pTS ((splitTab l).getD 0 "")).isSome

instance (pTS : String → Option ℤ) (l : String) : Decidable (lineParses pTS l) :=
  inferInstanceAs (Decidable (_ ∧ _))

/-- The lines the scan loop fully processes when it starts with `k` lines
already counted: all of them without a positive cap, otherwise the first
`maxRows - k` (the line that trips the cap is counted but not
processed). -/
def processedOf (maxRows : ℤ) (k : ℕ) (lines : List String) : List String :=
  if 0 < maxRows then lines.take (maxRows.toNat - k) else lines

/-- The lines the scanner attempts to read from the start: one more than
the processed ones when a positive cap stops the scan. -/
def attemptedLines (maxRows : ℤ) (lines : List String) : List String :=
  if 0 < maxRows then lines.take (maxRows.toNat + 1) else lines

/-- Final value of the line counter of either scan loop, starting from `k`
counted lines (both loops count a line, then break once the count exceeds
a positive `maxRows`). -/
def countedOf (maxRows : ℤ) : List String → ℕ → ℕ
  | [], k => k
  | _ :: rest, k =>
    if 0 < maxRows ∧ maxRows < ((k + 1 : ℕ) : ℤ) then k + 1
    else countedOf maxRows rest (k + 1)

/-- Source IPs of the lines that aggregate (field 1 of each parsing line). -/
def qualSrcs (pTS : String → Option ℤ) (lines : List String) : List String :=
  (lines.filter (fun l => decide (lineParses pTS l))).map (fun l => (splitTab l).getD 1 "")

/-- Total event count stored in the minute-count map. -/
def sumVals (mc : List (ℤ × ℕ)) : ℕ := (mc.map Prod.snd).sum

/-! ### Scan loop lemmas -/

theorem bumpCount_keys (mc : List (ℤ × ℕ)) (k : ℤ) :
    (bumpCount mc k).map Prod.fst =
      if k ∈ mc.map Prod.fst then mc.map Prod.fst else mc.map Prod.fst ++ [k] := by
  induction mc with
  | nil => simp [bumpCount]
  | cons p rest ih =>
    obtain ⟨k', n⟩ := p
    by_cases h : k' = k
    · subst h
      simp [bumpCount]
    · simp only [bumpCount, if_neg h, List.map_cons, List.mem_cons]
      rw [ih]
      by_cases hm : k ∈ rest.map Prod.fst
      · rw [if_pos hm, if_pos (Or.inr hm)]
      · rw [if_neg hm, if_neg (by rintro (h' | h') <;> [exact h h'.symm; exact hm h'])]
        simp

theorem bumpCount_keys_nodup (mc : List (ℤ × ℕ)) (k : ℤ)
    (h : (mc.map Prod.fst).Nodup) : ((bumpCount mc k).map Prod.fst).Nodup := by
  rw [bumpCount_keys]
  by_cases hm : k ∈ mc.map Prod.fst
  · rwa [if_pos hm]
  · rw [if_neg hm]
    refine List.Nodup.append h (List.nodup_singleton _) ?_
    intro x hx hx'
    rw [List.mem_singleton] at hx'
    subst hx'
    exact hm hx

theorem bumpCount_sumVals (mc : List (ℤ × ℕ)) (k : ℤ) :
    sumVals (bumpCount mc k) = sumVals mc + 1 := by
  induction mc with
  | nil => simp [bumpCount, sumVals]
  | cons p rest ih =>
    obtain ⟨k', n⟩ := p
    by_cases h : k' = k
    · subst h; simp [bumpCount, sumVals]; omega
    · simp only [bumpCount, if_neg h, sumVals, List.map_cons, List.sum_cons] at *
      omega

theorem scanStep_lineCount (pTS : String → Option ℤ) (line : String) (st : ScanState) :
    (scanStep pTS line st).lineCount = st.lineCount := by
  rw [scanStep]
  split
  · rfl
  · split <;> rfl

theorem scanStep_of_not_parses (pTS : String → Option ℤ) (line : String) (st : ScanState)
    (h : ¬ lineParses pTS line) : scanStep pTS line st = st := by
  rw [lineParses, not_and_or] at h
  rw [scanStep]
  rcases h with h | h
  · rw [if_pos (by omega)]
  · split
    · rfl
    · cases hp : pTS ((splitTab line).getD 0 "") with
      | none => rfl
      | some ts => exact absurd (by rw [hp]; rfl) h

theorem scanStep_keys_nodup (pTS : String → Option ℤ) (line : String) (st : ScanState)
    (h : (st.minuteCounts.map Prod.fst).Nodup) :
    ((scanStep pTS line st).minuteCounts.map Prod.fst).Nodup := by
  rw [scanStep]
  split
  · exact h
  · split
    · exact h
    · exact bumpCount_keys_nodup _ _ h

theorem scanTSV_keys_nodup (pTS : String → Option ℤ) (maxRows : ℤ) :
    ∀ (lines : List String) (st st' : ScanState),
      scanTSV pTS maxRows lines st = some st' →
      (st.minuteCounts.map Prod.fst).Nodup →
      (st'.minuteCounts.map Prod.fst).Nodup := by
  intro lines
  induction lines with
  | nil =>
    intro st st' h hn
    simp only [scanTSV, Option.some.injEq] at h
    exact h ▸ hn
  | cons line rest ih =>
    intro st st' h hn
    simp only [scanTSV] at h
    split at h
    · exact absurd h (by simp)
    · split at h
      · rw [Option.some.injEq] at h
        exact h ▸ hn
      · exact ih _ _ h (scanStep_keys_nodup _ _ _ hn)

theorem timelineOf_map_t (mc : List (ℤ × ℕ)) :
    (timelineOf mc).map Bucket.t = (mc.insertionSort pairLE).map Prod.fst := by
  rw [timelineOf, List.map_map]
  exact List.map_congr_left (fun p _ => rfl)

theorem timelineOf_sorted_nodup (mc : List (ℤ × ℕ)) (h : (mc.map Prod.fst).Nodup) :
    ((timelineOf mc).map Bucket.t).Sorted (· < ·) ∧ ((timelineOf mc).map Bucket.t).Nodup := by
  rw [timelineOf_map_t]
  have hperm : ((mc.insertionSort pairLE).map Prod.fst).Perm (mc.map Prod.fst) :=
    (List.perm_insertionSort pairLE mc).map Prod.fst
  have hnd : ((mc.insertionSort pairLE).map Prod.fst).Nodup := hperm.symm.nodup h
  have hle : ((mc.insertionSort pairLE).map Prod.fst).Sorted (· ≤ ·) :=
    List.pairwise_map.mpr (List.sorted_insertionSort pairLE mc)
  exact ⟨hle.lt_of_le hnd, hnd⟩

/-- C5.  For every input file, timestamp parser and `maxRows` value, the
timeline returned by `ParseTSV` is strictly ascending by minute and
contains no duplicate minutes (the empty timeline is returned as the nil
slice, `Option.getD` reads it as the empty sequence). -/
theorem timeline_strict_ascending (pTS : String → Option ℤ)
    (src : Option (List String)) (maxRows : ℤ) :
    ((((ParseTSV pTS src maxRows).timeline.getD []).map Bucket.t).Sorted (· < ·)) ∧
    ((((ParseTSV pTS src maxRows).timeline.getD []).map Bucket.t).Nodup) := by
  match src with
  | none => simp [ParseTSV]
  | some lines =>
    cases hscan : scanTSV pTS maxRows lines initScan with
    | none => simp [ParseTSV, hscan]
    | some st =>
      have hn : (st.minuteCounts.map Prod.fst).Nodup :=
        scanTSV_keys_nodup pTS maxRows lines initScan st hscan (by simp [initScan])
      by_cases hmc : st.minuteCounts = []
      · simp [ParseTSV, hscan, hmc]
      · simpa [ParseTSV, hscan, hmc] using timelineOf_sorted_nodup st.minuteCounts hn

theorem scanTSV_invariant (pTS : String → Option ℤ) (maxRows : ℤ) (P : ScanState → Prop)
    (hbrk : ∀ st : ScanState, P st → P { st with lineCount := st.lineCount + 1 })
    (hstep : ∀ (line : String) (st : ScanState), P st →
      P (scanStep pTS line { st with lineCount := st.lineCount + 1 })) :
    ∀ (lines : List String) (st st' : ScanState),
      scanTSV pTS maxRows lines st = some st' → P st → P st' := by
  intro lines
  induction lines with
  | nil =>
    intro st st' h hp
    simp only [scanTSV, Option.some.injEq] at h
    exact h ▸ hp
  | cons line rest ih =>
    intro st st' h hp
    simp only [scanTSV] at h
    split at h
    · exact absurd h (by simp)
    · split at h
      · rw [Option.some.injEq] at h
        exact h ▸ hbrk st hp
      · exact ih _ _ h (hstep line st hp)

theorem scanStep_start_le_end (pTS : String → Option ℤ) (line : String) (st : ScanState)
    (h : st.startT ≤ st.endT) :
    (scanStep pTS line st).startT ≤ (scanStep pTS line st).endT := by
  rw [scanStep]
  split
  · exact h
  · split
    · exact h
    · simp only
      split_ifs <;> omega

theorem processedOf_cons (maxRows : ℤ) (k : ℕ) (line : String) (rest : List String)
    (h : ¬(0 < maxRows ∧ maxRows < ((k + 1 : ℕ) : ℤ))) :
    processedOf maxRows k (line :: rest) = line :: processedOf maxRows (k + 1) rest := by
  rw [processedOf, processedOf]
  by_cases hm : 0 < maxRows
  · rw [if_pos hm, if_pos hm]
    have : maxRows.toNat - k = (maxRows.toNat - (k + 1)) + 1 := by omega
    rw [this, List.take_succ_cons]
  · rw [if_neg hm, if_neg hm]

theorem scanTSV_startEnd_frozen (pTS : String → Option ℤ) (maxRows : ℤ) :
    ∀ (lines : List String) (st st' : ScanState),
      scanTSV pTS maxRows lines st = some st' →
      (∀ l ∈ processedOf maxRows st.lineCount lines, ¬ lineParses pTS l) →
      st'.startT = st.startT ∧ st'.endT = st.endT := by
  intro lines
  induction lines with
  | nil =>
    intro st st' h _
    simp only [scanTSV, Option.some.injEq] at h
    exact ⟨h ▸ rfl, h ▸ rfl⟩
  | cons line rest ih =>
    intro st st' h hnp
    simp only [scanTSV] at h
    split at h
    · exact absurd h (by simp)
    · split at h
      · rw [Option.some.injEq] at h
        exact ⟨h ▸ rfl, h ▸ rfl⟩
      · rename_i hbrk
        rw [processedOf_cons maxRows st.lineCount line rest hbrk] at hnp
        have hline : ¬ lineParses pTS line := hnp line (List.mem_cons_self _ _)
        rw [scanStep_of_not_parses pTS line _ hline] at h
        have := ih _ _ h (fun l hl => hnp l (List.mem_cons_of_mem _ hl))
        exact this

/-- C6.  For every input and timestamp parser, the `Summary` returned by
`ParseTSV` satisfies `Start ≤ End`; and when no processed line has at
least two fields and a parseable timestamp, both `Start` and `End` are the
zero value. -/
theorem summary_start_le_end (pTS : String → Option ℤ)
    (src : Option (List String)) (maxRows : ℤ) :
    (ParseTSV pTS src maxRows).summary.startT ≤ (ParseTSV pTS src maxRows).summary.endT ∧
    ((∀ l ∈ processedOf maxRows 0 (src.getD []), ¬ lineParses pTS l) →
      (ParseTSV pTS src maxRows).summary.startT = 0 ∧
      (ParseTSV pTS src maxRows).summary.endT = 0) := by
  match src with
  | none => simp [ParseTSV, zeroSummary]
  | some lines =>
    cases hscan : scanTSV pTS maxRows lines initScan with
    | none => simp [ParseTSV, hscan, zeroSummary]
    | some st =>
      have hle : st.startT ≤ st.endT := by
        refine scanTSV_invariant pTS maxRows (fun s => s.startT ≤ s.endT) ?_ ?_
          lines initScan st hscan (by simp [initScan])
        · exact fun s hs => hs
        · exact fun line s hs => scanStep_start_le_end pTS line _ hs
      constructor
      · by_cases hmc : st.minuteCounts = [] <;> simp [ParseTSV, hscan, hmc, hle]
      · intro hnp
        have hfr := scanTSV_startEnd_frozen pTS maxRows lines initScan st hscan
          (by simpa [initScan] using hnp)
        rw [show initScan.startT = 0 from rfl, show initScan.endT = 0 from rfl] at hfr
        by_cases hmc : st.minuteCounts = [] <;>
          simp [ParseTSV, hscan, hmc, hfr.1, hfr.2]

theorem scanStep_sumVals_le (pTS : String → Option ℤ) (line : String) (st : ScanState) :
    sumVals (scanStep pTS line st).minuteCounts ≤ sumVals st.minuteCounts + 1 := by
  rw [scanStep]
  split
  · omega
  · split
    · omega
    · simp only [bumpCount_sumVals]
      omega

theorem scanTSV_sumVals (pTS : String → Option ℤ) (maxRows : ℤ)
    (lines : List String) (st st' : ScanState)
    (h : scanTSV pTS maxRows lines st = some st')
    (hp : sumVals st.minuteCounts ≤ st.lineCount) :
    sumVals st'.minuteCounts ≤ st'.lineCount := by
  refine scanTSV_invariant pTS maxRows (fun s => sumVals s.minuteCounts ≤ s.lineCount)
    ?_ ?_ lines st st' h hp
  · intro s hs
    simpa using Nat.le_succ_of_le hs
  · intro line s hs
    have h1 := scanStep_sumVals_le pTS line { s with lineCount := s.lineCount + 1 }
    have h2 := scanStep_lineCount pTS line { s with lineCount := s.lineCount + 1 }
    simp only [h2]
    simp only at h1 ⊢
    omega

theorem scanTSV_lineCount (pTS : String → Option ℤ) (maxRows : ℤ) :
    ∀ (lines : List String) (st st' : ScanState),
      scanTSV pTS maxRows lines st = some st' →
      st'.lineCount = countedOf maxRows lines st.lineCount := by
  intro lines
  induction lines with
  | nil =>
    intro st st' h
    simp only [scanTSV, Option.some.injEq] at h
    rw [← h, countedOf]
  | cons line rest ih =>
    intro st st' h
    simp only [scanTSV] at h
    rw [countedOf]
    split at h
    · exact absurd h (by simp)
    · split at h <;> rename_i hbrk
      · rw [Option.some.injEq] at h
        rw [if_pos (by exact_mod_cast hbrk), ← h]
      · rw [if_neg (by exact_mod_cast hbrk)]
        have := ih _ _ h
        rwa [scanStep_lineCount] at this

theorem sampleLoop_length (P : FieldParsers) (maxRows keepRows : ℤ) :
    ∀ (lines : List String) (seen : ℕ) (acc rows' : List Event),
      sampleLoop P maxRows keepRows lines seen acc = some rows' →
      rows'.length + seen ≤ acc.length + countedOf maxRows lines seen := by
  intro lines
  induction lines with
  | nil =>
    intro seen acc rows' h
    simp only [sampleLoop, Option.some.injEq] at h
    rw [← h, countedOf]
  | cons line rest ih =>
    intro seen acc rows' h
    simp only [sampleLoop] at h
    rw [countedOf]
    split at h
    · exact absurd h (by simp)
    · split at h <;> rename_i hbrk
      · rw [Option.some.injEq] at h
        rw [if_pos hbrk, ← h]
        omega
      · rw [if_neg hbrk]
        split at h <;> rename_i hkeep
        · have := ih (seen + 1) (acc ++ [parseEventLine P line]) rows' h
          simp only [List.length_append, List.length_cons, List.length_nil] at this
          omega
        · have := ih (seen + 1) acc rows' h
          omega

theorem bucketSum_timelineOf (mc : List (ℤ × ℕ)) :
    ((timelineOf mc).map Bucket.count).sum = sumVals mc := by
  rw [timelineOf, List.map_map, sumVals]
  have h1 : (mc.insertionSort pairLE).map (Bucket.count ∘ fun p => (⟨p.1, p.2⟩ : Bucket)) =
      (mc.insertionSort pairLE).map Prod.snd := List.map_congr_left (fun p _ => rfl)
  rw [h1]
  exact ((List.perm_insertionSort pairLE mc).map Prod.snd).sum_eq

theorem ParseTSV_some (pTS : String → Option ℤ) (lines : List String) (maxRows : ℤ)
    (st : ScanState) (hscan : scanTSV pTS maxRows lines initScan = some st) :
    (ParseTSV pTS (some lines) maxRows).summary =
      ⟨st.lineCount, st.seen.length, st.startT, st.endT⟩ ∧
    (ParseTSV pTS (some lines) maxRows).err = none ∧
    (ParseTSV pTS (some lines) maxRows).timeline =
      (if st.minuteCounts = [] then none else some (timelineOf st.minuteCounts)) := by
  by_cases hmc : st.minuteCounts = [] <;> simp [ParseTSV, hscan, hmc]

/-- C7.  For every input, parser set and every `maxRows`/`keepRows`
combination, `Summary.Lines` returned by `ParseTSVRows` is at least the
sum of the returned timeline's bucket counts and at least the length of
the returned row sample. -/
theorem lines_ge_counts_and_rows (P : FieldParsers) (src : Option (List String))
    (maxRows keepRows : ℤ) :
    (((ParseTSVRows P src maxRows keepRows).timeline.getD []).map Bucket.count).sum ≤
      (ParseTSVRows P src maxRows keepRows).summary.lines ∧
    (ParseTSVRows P src maxRows keepRows).rows.length ≤
      (ParseTSVRows P src maxRows keepRows).summary.lines := by
  match src with
  | none => simp [ParseTSVRows, zeroSummary]
  | some lines =>
    cases hscan : scanTSV P.pTS maxRows lines initScan with
    | none =>
      have herr : (ParseTSV P.pTS (some lines) maxRows).err = some .tooLong := by
        simp [ParseTSV, hscan]
      simp [ParseTSVRows, herr, zeroSummary]
    | some st =>
      obtain ⟨hsum, herr, htl⟩ := ParseTSV_some P.pTS lines maxRows st hscan
      cases hsample : sampleLoop P maxRows keepRows lines 0 [] with
      | none => simp [ParseTSVRows, herr, hsample, zeroSummary]
      | some rows' =>
        have hout : ParseTSVRows P (some lines) maxRows keepRows =
            ⟨(ParseTSV P.pTS (some lines) maxRows).summary,
             (ParseTSV P.pTS (some lines) maxRows).timeline, rows', none⟩ := by
          simp [ParseTSVRows, herr, hsample]
        rw [hout, hsum, htl]
        constructor
        · have hinv : sumVals st.minuteCounts ≤ st.lineCount :=
            scanTSV_sumVals P.pTS maxRows lines initScan st hscan (by simp [initScan, sumVals])
          by_cases hmc : st.minuteCounts = []
          · simp [hmc]
          · simpa [hmc, bucketSum_timelineOf] using hinv
        · dsimp only
          have hlen := sampleLoop_length P maxRows keepRows lines 0 [] rows' hsample
          have hcnt := scanTSV_lineCount P.pTS maxRows lines initScan st hscan
          simp only [initScan] at hcnt
          simp only [List.length_nil] at hlen
          omega

/-- The lines the scanner attempts from a state with `k` lines already
counted (generalisation of `attemptedLines` used in the loop induction). -/
def attemptedOf (maxRows : ℤ) (k : ℕ) (lines : List String) : List String :=
  if 0 < maxRows then lines.take (maxRows.toNat + 1 - k) else lines

theorem attemptedOf_zero (maxRows : ℤ) (lines : List String) :
    attemptedOf maxRows 0 lines = attemptedLines maxRows lines := by
  rw [attemptedOf, attemptedLines, Nat.sub_zero]

theorem attemptedOf_head_mem (maxRows : ℤ) (k : ℕ) (line : String) (rest : List String)
    (hk : 0 < maxRows → (k : ℤ) ≤ maxRows) :
    line ∈ attemptedOf maxRows k (line :: rest) := by
  rw [attemptedOf]
  split
  · rename_i hm
    have h1 : 1 ≤ maxRows.toNat + 1 - k := by
      have := hk hm
      omega
    obtain ⟨n, hn⟩ := Nat.exists_eq_add_of_le h1
    rw [hn, Nat.add_comm 1 n, List.take_succ_cons]
    exact List.mem_cons_self _ _
  · exact List.mem_cons_self _ _

theorem attemptedOf_cons (maxRows : ℤ) (k : ℕ) (line : String) (rest : List String)
    (h : ¬(0 < maxRows ∧ maxRows < ((k + 1 : ℕ) : ℤ))) :
    attemptedOf maxRows k (line :: rest) = line :: attemptedOf maxRows (k + 1) rest := by
  rw [attemptedOf, attemptedOf]
  by_cases hm : 0 < maxRows
  · rw [if_pos hm, if_pos hm]
    have h2 : maxRows.toNat + 1 - k = (maxRows.toNat + 1 - (k + 1)) + 1 := by
      rw [not_and_or] at h
      rcases h with h | h
      · exact absurd hm h
      · push_neg at h
        omega
    rw [h2, List.take_succ_cons]
  · rw [if_neg hm, if_neg hm]

theorem attemptedOf_brk (maxRows : ℤ) (k : ℕ) (line : String) (rest : List String)
    (hm : 0 < maxRows) (hlt : maxRows < ((k + 1 : ℕ) : ℤ)) (hk : (k : ℤ) ≤ maxRows) :
    attemptedOf maxRows k (line :: rest) = [line] := by
  rw [attemptedOf, if_pos hm]
  have : maxRows.toNat + 1 - k = 1 := by omega
  rw [this, List.take_succ_cons, List.take_zero]

theorem scanTSV_none_iff (pTS : String → Option ℤ) (maxRows : ℤ) :
    ∀ (lines : List String) (st : ScanState),
      (0 < maxRows → (st.lineCount : ℤ) ≤ maxRows) →
      (scanTSV pTS maxRows lines st = none ↔
        ∃ l ∈ attemptedOf maxRows st.lineCount lines, maxLineLen < l.utf8ByteSize) := by
  intro lines
  induction lines with
  | nil =>
    intro st _
    rw [attemptedOf]
    split <;> simp [scanTSV]
  | cons line rest ih =>
    intro st hk
    simp only [scanTSV]
    by_cases hlong : maxLineLen < line.utf8ByteSize
    · rw [if_pos hlong]
      exact iff_of_true rfl ⟨line, attemptedOf_head_mem maxRows st.lineCount line rest hk, hlong⟩
    · rw [if_neg hlong]
      by_cases hbrk : 0 < maxRows ∧ maxRows < ((st.lineCount + 1 : ℕ) : ℤ)
      · rw [if_pos (by exact_mod_cast hbrk)]
        rw [attemptedOf_brk maxRows st.lineCount line rest hbrk.1 hbrk.2 (hk hbrk.1)]
        refine iff_of_false (by simp) ?_
        rintro ⟨l, hl, hlen⟩
        rw [List.mem_singleton.mp hl] at hlen
        exact hlong hlen
      · rw [if_neg (by exact_mod_cast hbrk)]
        have hk' : 0 < maxRows →
            (((scanStep pTS line { st with lineCount := st.lineCount + 1 }).lineCount : ℕ) : ℤ) ≤ maxRows := by
          intro hm
          rw [scanStep_lineCount]
          rw [not_and_or] at hbrk
          rcases hbrk with h | h
          · exact absurd hm h
          · push_neg at h
            simpa using h
        rw [ih _ hk', scanStep_lineCount]
        rw [attemptedOf_cons maxRows st.lineCount line rest hbrk]
        simp only
        constructor
        · rintro ⟨l, hl, hlen⟩
          exact ⟨l, List.mem_cons_of_mem _ hl, hlen⟩
        · rintro ⟨l, hl, hlen⟩
          rcases List.mem_cons.mp hl with rfl | hl'
          · exact absurd hlen hlong
          · exact ⟨l, hl', hlen⟩

/-- C8.  `ParseTSV` fails exactly when the source cannot be opened or a
line the scanner attempts exceeds the 1 MiB line cap; on failure it
returns the zero `Summary` and a nil timeline; malformed row content alone
(too few columns, unparsable fields) never produces an error. -/
theorem parse_tsv_error_iff (pTS : String → Option ℤ)
    (src : Option (List String)) (maxRows : ℤ) :
    ((ParseTSV pTS src maxRows).err ≠ none ↔
      src = none ∨ ∃ l ∈ attemptedLines maxRows (src.getD []), maxLineLen < l.utf8ByteSize) ∧
    ((ParseTSV pTS src maxRows).err ≠ none →
      (ParseTSV pTS src maxRows).summary = zeroSummary ∧
      (ParseTSV pTS src maxRows).timeline = none) := by
  match src with
  | none => simp [ParseTSV]
  | some lines =>
    have hiff := scanTSV_none_iff pTS maxRows lines initScan
      (by intro hm; rw [show initScan.lineCount = 0 from rfl]; omega)
    rw [show initScan.lineCount = 0 from rfl, attemptedOf_zero] at hiff
    cases hscan : scanTSV pTS maxRows lines initScan with
    | none =>
      rw [hscan] at hiff
      have hex : ∃ l ∈ attemptedLines maxRows lines, maxLineLen < l.utf8ByteSize := hiff.mp rfl
      constructor
      · exact iff_of_true (by simp [ParseTSV, hscan]) (Or.inr (by simpa using hex))
      · intro _
        simp [ParseTSV, hscan]
    | some st =>
      rw [hscan] at hiff
      have hnex : ¬ ∃ l ∈ attemptedLines maxRows lines, maxLineLen < l.utf8ByteSize := by
        intro hx
        exact absurd (hiff.mpr hx) (by simp)
      obtain ⟨_, herr, _⟩ := ParseTSV_some pTS lines maxRows st hscan
      rw [herr]
      constructor
      · refine iff_of_false (by simp) ?_
        rintro (h | hx)
        · exact absurd h (by simp)
        · exact hnex (by simpa using hx)
      · intro h
        exact absurd rfl h

theorem scanStep_seen_toFinset (pTS : String → Option ℤ) (line : String) (st : ScanState) :
    (scanStep pTS line st).seen.toFinset =
      (if lineParses pTS line
       then insert ((splitTab line).getD 1 "") st.seen.toFinset
       else st.seen.toFinset) := by
  rw [scanStep]
  split <;> rename_i hlen
  · rw [if_neg (by rw [lineParses]; omega)]
  · cases hp : pTS ((splitTab line).getD 0 "") with
    | none =>
      rw [if_neg (by rw [lineParses, hp]; simp)]
    | some ts =>
      rw [if_pos ⟨by omega, by rw [hp]; rfl⟩]
      simp only
      split <;> rename_i hmem
      · rw [Finset.insert_eq_self.mpr (List.mem_toFinset.mpr hmem)]
      · rw [List.toFinset_cons]

theorem scanStep_seen_nodup (pTS : String → Option ℤ) (line : String) (st : ScanState)
    (h : st.seen.Nodup) : (scanStep pTS line st).seen.Nodup := by
  rw [scanStep]
  split
  · exact h
  · split
    · exact h
    · simp only
      split <;> rename_i hmem
      · exact h
      · exact List.Nodup.cons hmem h

theorem qualSrcs_cons (pTS : String → Option ℤ) (line : String) (rest : List String) :
    qualSrcs pTS (line :: rest) =
      (if lineParses pTS line
       then (splitTab line).getD 1 "" :: qualSrcs pTS rest
       else qualSrcs pTS rest) := by
  rw [qualSrcs, qualSrcs]
  by_cases hp : lineParses pTS line
  · rw [if_pos hp, List.filter_cons_of_pos (by simpa using hp), List.map_cons]
  · rw [if_neg hp, List.filter_cons_of_neg (by simpa using hp)]

theorem scanTSV_seen (pTS : String → Option ℤ) (maxRows : ℤ) :
    ∀ (lines : List String) (st st' : ScanState),
      scanTSV pTS maxRows lines st = some st' →
      st'.seen.toFinset =
        st.seen.toFinset ∪ (qualSrcs pTS (processedOf maxRows st.lineCount lines)).toFinset ∧
      (st.seen.Nodup → st'.seen.Nodup) := by
  intro lines
  induction lines with
  | nil =>
    intro st st' h
    simp only [scanTSV, Option.some.injEq] at h
    subst h
    constructor
    · rw [processedOf]
      split <;> simp [qualSrcs]
    · exact id
  | cons line rest ih =>
    intro st st' h
    simp only [scanTSV] at h
    split at h
    · exact absurd h (by simp)
    · split at h <;> rename_i hbrk
      · rw [Option.some.injEq] at h
        subst h
        constructor
        · rw [processedOf, if_pos hbrk.1]
          rw [show maxRows.toNat - st.lineCount = 0 by
            have h1 := hbrk.1
            have h2 := hbrk.2
            simp only at h2
            omega]
          simp [qualSrcs]
        · exact id
      · have hstep := scanStep_seen_toFinset pTS line { st with lineCount := st.lineCount + 1 }
        obtain ⟨ihf, ihn⟩ := ih _ _ h
        rw [processedOf_cons maxRows st.lineCount line rest hbrk, qualSrcs_cons]
        rw [scanStep_lineCount] at ihf
        constructor
        · rw [ihf, hstep]
          by_cases hp : lineParses pTS line
          · rw [if_pos hp, if_pos hp]
            simp only [List.toFinset_cons]
            ext x
            simp only [Finset.mem_union, Finset.mem_insert, List.mem_toFinset]
            tauto
          · rw [if_neg hp, if_neg hp]
        · intro hnd
          exact ihn (scanStep_seen_nodup pTS line _ hnd)

/-- C10.  When `ParseTSV` succeeds, `UniqueIPs` counts exactly the
distinct source-IP fields of the processed lines having at least two
tab-separated columns and a parseable timestamp, and `Lines` counts every
scanned line — so an IP appearing only on lines whose timestamp fails to
parse contributes nothing to the distinct count even though those lines
are counted in `Lines`. -/
theorem unique_ips_parseable_only (pTS : String → Option ℤ)
    (src : Option (List String)) (maxRows : ℤ)
    (herr : (ParseTSV pTS src maxRows).err = none) :
    (ParseTSV pTS src maxRows).summary.uniqueIPs =
      (qualSrcs pTS (processedOf maxRows 0 (src.getD []))).dedup.length ∧
    (ParseTSV pTS src maxRows).summary.lines = countedOf maxRows (src.getD []) 0 := by
  match src with
  | none => exact absurd herr (by simp [ParseTSV])
  | some lines =>
    cases hscan : scanTSV pTS maxRows lines initScan with
    | none => exact absurd herr (by simp [ParseTSV, hscan])
    | some st =>
      obtain ⟨hsum, _, _⟩ := ParseTSV_some pTS lines maxRows st hscan
      rw [hsum]
      obtain ⟨hf, hn⟩ := scanTSV_seen pTS maxRows lines initScan st hscan
      rw [show initScan.lineCount = 0 from rfl] at hf
      rw [show initScan.seen = [] from rfl] at hf hn
      simp only [List.toFinset_nil, Finset.empty_union] at hf
      constructor
      · simp only [Option.getD_some]
        rw [← List.card_toFinset, ← hf,
          List.toFinset_card_of_nodup (hn List.nodup_nil)]
      · simp only [Option.getD_some]
        have := scanTSV_lineCount pTS maxRows lines initScan st hscan
        simpa [initScan] using this

theorem sensIPs_nodup (rows : List Event) : (sensIPs rows).Nodup := List.nodup_dedup _

theorem mem_sensIPs_iff (rows : List Event) (ip : String) :
    ip ∈ sensIPs rows ↔ 0 < sensHits rows ip := by
  rw [sensIPs, List.mem_dedup, List.mem_map, sensHits, sensEvents]
  constructor
  · rintro ⟨e, he, rfl⟩
    rw [List.mem_filter] at he
    have : e ∈ rows.filter (fun x => sensValid x && x.srcIP == e.srcIP && (matchFor x.path).isSome) := by
      rw [List.mem_filter]
      refine ⟨he.1, ?_⟩
      have h2 := he.2
      simp only [Bool.and_eq_true] at h2 ⊢
      exact ⟨⟨h2.1, by simp⟩, h2.2⟩
    exact List.length_pos_of_mem this
  · intro hpos
    rw [List.length_pos] at hpos
    obtain ⟨e, he⟩ := List.exists_mem_of_ne_nil _ hpos
    rw [List.mem_filter] at he
    have h2 := he.2
    simp only [Bool.and_eq_true, beq_iff_eq] at h2
    exact ⟨e, by
      rw [List.mem_filter]
      simp only [Bool.and_eq_true]
      exact ⟨he.1, ⟨h2.1.1, h2.2⟩⟩, h2.1.2⟩

theorem sensRecord_SrcIP (rows : List Event) (ip : String) :
    (sensRecord rows ip).SrcIP = ip := rfl

theorem sens_filterMap_count (rows : List Event) (minHits minUnique : ℤ) :
    ∀ (o : List String), o.Nodup → ∀ ip : String,
      ((o.filterMap (fun ip' =>
          if minHits ≤ (sensHits rows ip' : ℤ) ∨ minUnique ≤ (sensUniq rows ip' : ℤ)
          then some (sensRecord rows ip') else none)).filter
        (fun a => a.SrcIP == ip)).length =
      if ip ∈ o ∧ (minHits ≤ (sensHits rows ip : ℤ) ∨ minUnique ≤ (sensUniq rows ip : ℤ))
      then 1 else 0 := by
  intro o
  induction o with
  | nil =>
    intro _ ip
    simp
  | cons ip' o' ih =>
    intro hnd ip
    have hnd' : o'.Nodup := hnd.of_cons
    have hnotmem : ip' ∉ o' := (List.nodup_cons.mp hnd).1
    rw [List.filterMap_cons]
    by_cases hc : minHits ≤ (sensHits rows ip' : ℤ) ∨ minUnique ≤ (sensUniq rows ip' : ℤ)
    · rw [if_pos hc]
      by_cases hip : ip' = ip
      · subst hip
        rw [List.filter_cons_of_pos (by simp [sensRecord_SrcIP])]
        rw [List.length_cons, ih hnd' ip']
        rw [if_neg (fun h => hnotmem h.1), if_pos ⟨List.mem_cons_self _ _, hc⟩]
      · rw [List.filter_cons_of_neg (by simp [sensRecord_SrcIP]; exact hip)]
        rw [ih hnd' ip]
        have hmem : (ip ∈ ip' :: o' ∧ (minHits ≤ (sensHits rows ip : ℤ) ∨ minUnique ≤ (sensUniq rows ip : ℤ)))
            ↔ (ip ∈ o' ∧ (minHits ≤ (sensHits rows ip : ℤ) ∨ minUnique ≤ (sensUniq rows ip : ℤ))) := by
          rw [List.mem_cons]
          constructor
          · rintro ⟨h1 | h1, h2⟩
            · exact absurd h1.symm hip
            · exact ⟨h1, h2⟩
          · rintro ⟨h1, h2⟩
            exact ⟨Or.inr h1, h2⟩
        rw [if_congr hmem.symm rfl rfl]
    · rw [if_neg hc]
      rw [ih hnd' ip]
      by_cases hip : ip' = ip
      · subst hip
        rw [if_neg (fun h => hc h.2), if_neg (fun h => hc h.2)]
      · have hmem : (ip ∈ ip' :: o' ∧ (minHits ≤ (sensHits rows ip : ℤ) ∨ minUnique ≤ (sensUniq rows ip : ℤ)))
            ↔ (ip ∈ o' ∧ (minHits ≤ (sensHits rows ip : ℤ) ∨ minUnique ≤ (sensUniq rows ip : ℤ))) := by
          rw [List.mem_cons]
          constructor
          · rintro ⟨h1 | h1, h2⟩
            · exact absurd h1.symm hip
            · exact ⟨h1, h2⟩
          · rintro ⟨h1, h2⟩
            exact ⟨Or.inr h1, h2⟩
        rw [if_congr hmem.symm rfl rfl]

/-- C4.  For every row set, thresholds and map iteration order,
`DetectSensitivePaths` emits exactly one record for each source IP that
has at least one sensitive hit and satisfies `hits ≥ minHits` or
`uniquePrefixes ≥ minUnique`, no record for any other IP, and every
record carries that IP's exact hit and distinct-prefix counts. -/
theorem sensitive_one_record_per_ip (rows : List Event) (minHits minUnique : ℤ)
    (ipOrder : List String) (hord : ipOrder.Perm (sensIPs rows)) (ip : String) :
    (((DetectSensitivePaths rows minHits minUnique ipOrder).filter
        (fun a => a.SrcIP == ip)).length =
      if 0 < sensHits rows ip ∧
          (minHits ≤ (sensHits rows ip : ℤ) ∨ minUnique ≤ (sensUniq rows ip : ℤ))
      then 1 else 0) ∧
    (∀ a ∈ DetectSensitivePaths rows minHits minUnique ipOrder,
      a.SrcIP = ip → a.Hits = sensHits rows ip ∧ a.UniquePref = sensUniq rows ip) := by
  have hnd : ipOrder.Nodup := hord.symm.nodup (sensIPs_nodup rows)
  constructor
  · have hsort : ((DetectSensitivePaths rows minHits minUnique ipOrder).filter
        (fun a => a.SrcIP == ip)).length =
        ((ipOrder.filterMap (fun ip' =>
          if minHits ≤ (sensHits rows ip' : ℤ) ∨ minUnique ≤ (sensUniq rows ip' : ℤ)
          then some (sensRecord rows ip') else none)).filter
          (fun a => a.SrcIP == ip)).length := by
      simp only [DetectSensitivePaths]
      exact ((List.perm_insertionSort sensGE _).filter _).length_eq
    rw [hsort, sens_filterMap_count rows minHits minUnique ipOrder hnd ip]
    have hmem : ip ∈ ipOrder ↔ 0 < sensHits rows ip := by
      rw [hord.mem_iff]
      exact mem_sensIPs_iff rows ip
    rw [if_congr (and_congr_left' hmem) rfl rfl]
  · intro a ha hip
    simp only [DetectSensitivePaths] at ha
    rw [List.mem_insertionSort] at ha
    rw [List.mem_filterMap] at ha
    obtain ⟨ip', _, hf⟩ := ha
    split at hf
    · rw [Option.some.injEq] at hf
      rw [← hf] at hip ⊢
      rw [sensRecord_SrcIP] at hip
      subst hip
      exact ⟨rfl, rfl⟩
    · exact absurd hf (by simp)

/-- Concrete timestamp parser used in the closed examples: only the
field text "t60" parses (to the instant 60s, i.e. minute 1). -/
def exParseTS : String → Option ℤ := fun s => if s = "t60" then some 60 else none

/-- Field parsers for the closed examples (status/bytes never parse; the
detectors ignore those fields). -/
def exParsers : FieldParsers := ⟨exParseTS, fun _ => none, fun _ => none⟩

/-- A four-line input file in which two distinct source IPs each probe
`/admin` and `/login` at the same instant, so both qualify for the
sensitive-path detector with the handler thresholds (`minUnique = 2`) and
their records carry the same `LastSeen` sort key. -/
def linesTie : List String :=
  ["t60\tA\tx\tGET\t/admin", "t60\tA\tx\tGET\t/login",
   "t60\tB\tx\tGET\t/admin", "t60\tB\tx\tGET\t/login"]

/-- The rows the pipeline derives from `linesTie`. -/
def rowsTie : List Event := (ParseTSVRows exParsers (some linesTie) 0 0).rows

/-- C2.  The pipeline is not deterministic: on the input file `linesTie`
(scanned and sampled by `ParseTSVRows`, then analysed with the upload
handler's thresholds `minHits = 5`, `minUnique = 2`), two legitimate
iteration orders of the detector's IP map — both permutations of its key
set — produce the two qualifying anomalies in different positions, so two
runs of the byte-identical input can return differently ordered anomaly
lists.  The sort key (`LastSeen`) ties, and the unordered map iteration
order leaks through the stable sort. -/
theorem pipeline_order_dependence :
    (["A", "B"].Perm (sensIPs rowsTie) ∧ ["B", "A"].Perm (sensIPs rowsTie)) ∧
    (DetectSensitivePaths rowsTie 5 2 ["A", "B"]).map (fun a => a.SrcIP) ≠
      (DetectSensitivePaths rowsTie 5 2 ["B", "A"]).map (fun a => a.SrcIP) := by
  refine ⟨⟨by decide, by decide⟩, ?_⟩
  have h1 : (DetectSensitivePaths rowsTie 5 2 ["A", "B"]).map (fun a => a.SrcIP) = ["A", "B"] := by
    decide
  have h2 : (DetectSensitivePaths rowsTie 5 2 ["B", "A"]).map (fun a => a.SrcIP) = ["B", "A"] := by
    decide
  rw [h1, h2]
  decide

/-- Five hits on `/admin/x` from one IP at one instant — the worked
example of the sensitive-path claim. -/
def exAdmin : List Event :=
  List.replicate 5 ⟨60, "9.9.9.9", "x", "GET", "/admin/x", 0, 0, ""⟩

/-- Witness for C4 at the claim's own example: with `minHits = 5` the IP
hitting `/admin/x` five times appears exactly once, with `hits = 5` and
`uniquePrefixes = 1`. -/
theorem sensitive_one_record_per_ip_witness :
    ((DetectSensitivePaths exAdmin 5 2 ["9.9.9.9"]).filter
      (fun a => a.SrcIP == "9.9.9.9")).length = 1 ∧
    sensHits exAdmin "9.9.9.9" = 5 ∧ sensUniq exAdmin "9.9.9.9" = 1 := by
  refine ⟨?_, by decide, by decide⟩
  rw [(sensitive_one_record_per_ip exAdmin 5 2 ["9.9.9.9"] (by decide) "9.9.9.9").1]
  decide

/-- C9.  The merged anomaly slice is never nil, and when the detectors
together produce more anomalies than `maxAnoms` the merged output has
length exactly `maxAnoms` and consists of a prefix of the rate list
followed by a prefix of the sensitive list — each detector's internal
order is preserved among the survivors. -/
theorem merge_cap_and_nonnull (rateAnoms : List Anomaly) (sensAnoms : List AnomalySensitive) :
    (mergeAnomalies rateAnoms sensAnoms).isSome = true ∧
    (maxAnoms < rateAnoms.length + sensAnoms.length →
      ∃ l r s, mergeAnomalies rateAnoms sensAnoms = some l ∧ l.length = maxAnoms ∧
        r <+: rateAnoms ∧ s <+: sensAnoms ∧ l = r.map rateToAny ++ s.map sensToAny) := by
  constructor
  · rfl
  · intro hlt
    have hlen : (rateAnoms.map rateToAny ++ sensAnoms.map sensToAny).length =
        rateAnoms.length + sensAnoms.length := by
      rw [List.length_append, List.length_map, List.length_map]
    refine ⟨(rateAnoms.map rateToAny ++ sensAnoms.map sensToAny).take maxAnoms,
      rateAnoms.take maxAnoms, sensAnoms.take (maxAnoms - rateAnoms.length),
      ?_, ?_, ?_, ?_, ?_⟩
    · simp only [mergeAnomalies, Option.map]
      rw [if_pos (by rw [hlen]; exact hlt)]
    · rw [List.length_take, hlen]
      omega
    · exact ⟨rateAnoms.drop maxAnoms, List.take_append_drop _ _⟩
    · exact ⟨sensAnoms.drop (maxAnoms - rateAnoms.length), List.take_append_drop _ _⟩
    · rw [List.take_append_eq_append_take, ← List.map_take, ← List.map_take, List.length_map]

/-- A rate anomaly value used to exercise the merge cap. -/
noncomputable def exRateAnom : Anomaly := ⟨"rate_spike", "1.1.1.1", 0, 0, 0, 0, 0⟩

/-- Witness for C9: sixty rate anomalies and no sensitive ones exceed the
cap of 50, and the merged output is a (non-nil) list of length exactly
50. -/
theorem merge_cap_and_nonnull_witness :
    maxAnoms < (List.replicate 60 exRateAnom).length + ([] : List AnomalySensitive).length ∧
    ∃ l, mergeAnomalies (List.replicate 60 exRateAnom) [] = some l ∧ l.length = maxAnoms := by
  have hlt : maxAnoms < (List.replicate 60 exRateAnom).length + ([] : List AnomalySensitive).length := by
    rw [List.length_replicate, List.length_nil, maxAnoms]
    omega
  obtain ⟨l, r, s, hl, hlen, -, -, -⟩ :=
    (merge_cap_and_nonnull (List.replicate 60 exRateAnom) []).2 hlt
  exact ⟨hlt, l, hl, hlen⟩

theorem varQ_nonneg (xs : List ℚ) : 0 ≤ varQ xs := by
  rw [varQ]
  split
  · exact le_refl 0
  · apply div_nonneg
    · apply List.sum_nonneg
      intro x hx
      rw [List.mem_map] at hx
      obtain ⟨y, _, rfl⟩ := hx
      exact mul_self_nonneg _
    · exact Nat.cast_nonneg _

theorem ipStd_nonneg (rows : List Event) (ip : String) : 0 ≤ ipStd rows ip :=
  Real.sqrt_nonneg _

theorem ipStd_eq_zero_of_not_pos (rows : List Event) (ip : String)
    (h : ¬ 0 < ipStd rows ip) : ipStd rows ip = 0 :=
  le_antisymm (not_lt.mp h) (ipStd_nonneg rows ip)

theorem varQ_eq_zero_of_ipStd_eq_zero (rows : List Event) (ip : String)
    (h : ipStd rows ip = 0) : varQ (ipCounts rows ip) = 0 := by
  rw [ipStd] at h
  have h2 : ((varQ (ipCounts rows ip) : ℚ) : ℝ) ≤ 0 := Real.sqrt_eq_zero'.mp h
  have h3 : (0 : ℝ) ≤ ((varQ (ipCounts rows ip) : ℚ) : ℝ) := by
    exact_mod_cast varQ_nonneg (ipCounts rows ip)
  exact_mod_cast le_antisymm h2 h3

theorem varQ_zero_all_eq_mean (xs : List ℚ) (h : varQ xs = 0) :
    ∀ x ∈ xs, x = meanQ xs := by
  intro x hx
  rw [varQ] at h
  split at h
  · rename_i hnil
    exact absurd (hnil ▸ hx) (List.not_mem_nil x)
  · rename_i hnil
    have hlen : (0 : ℚ) < (xs.length : ℚ) := by
      have := List.length_pos.mpr hnil
      exact_mod_cast this
    have hge : (0 : ℚ) ≤ (xs.map (fun y => (y - meanQ xs) * (y - meanQ xs))).sum := by
      apply List.sum_nonneg
      intro z hz
      rw [List.mem_map] at hz
      obtain ⟨y, _, rfl⟩ := hz
      exact mul_self_nonneg _
    have hsum : (xs.map (fun y => (y - meanQ xs) * (y - meanQ xs))).sum = 0 := by
      rcases lt_or_eq_of_le hge with h' | h'
      · exfalso
        have := div_pos h' hlen
        rw [h] at this
        exact lt_irrefl 0 this
      · exact h'.symm
    have hterm : (x - meanQ xs) * (x - meanQ xs) = 0 := by
      have hmem : (x - meanQ xs) * (x - meanQ xs) ∈
          xs.map (fun y => (y - meanQ xs) * (y - meanQ xs)) :=
        List.mem_map_of_mem _ hx
      have hperm := List.perm_cons_erase hmem
      have hsplit : (xs.map (fun y => (y - meanQ xs) * (y - meanQ xs))).sum =
          (x - meanQ xs) * (x - meanQ xs) +
            ((xs.map (fun y => (y - meanQ xs) * (y - meanQ xs))).erase
              ((x - meanQ xs) * (x - meanQ xs))).sum := by
        rw [hperm.sum_eq, List.sum_cons]
      have hrest : 0 ≤ ((xs.map (fun y => (y - meanQ xs) * (y - meanQ xs))).erase
          ((x - meanQ xs) * (x - meanQ xs))).sum := by
        apply List.sum_nonneg
        intro z hz
        have hz' := List.mem_of_mem_erase hz
        rw [List.mem_map] at hz'
        obtain ⟨y, _, rfl⟩ := hz'
        exact mul_self_nonneg _
      have hx0 := mul_self_nonneg (x - meanQ xs)
      rw [hsum] at hsplit
      linarith
    have := mul_self_eq_zero.mp hterm
    linarith

theorem mem_minutesOf_iff (rows : List Event) (ip : String) (m : ℤ) :
    m ∈ minutesOf rows ip ↔ 0 < countOf rows ip m := by
  rw [minutesOf, uniqueSorted, List.mem_dedup, List.mem_insertionSort, List.mem_map, countOf]
  constructor
  · rintro ⟨e, he, rfl⟩
    rw [List.mem_filter] at he
    apply List.length_pos_of_mem (a := e)
    rw [List.mem_filter]
    refine ⟨he.1, ?_⟩
    have h2 := he.2
    simp only [Bool.and_eq_true] at h2 ⊢
    exact ⟨h2, by simp⟩
  · intro h
    rw [List.length_pos] at h
    obtain ⟨e, he⟩ := List.exists_mem_of_ne_nil _ h
    rw [List.mem_filter] at he
    have h2 := he.2
    simp only [Bool.and_eq_true, beq_iff_eq] at h2
    refine ⟨e, ?_, h2.2⟩
    rw [List.mem_filter]
    simp only [Bool.and_eq_true, beq_iff_eq]
    exact ⟨he.1, h2.1⟩

theorem countOf_pos_mem_rateIPs (rows : List Event) (ip : String) (m : ℤ)
    (h : 0 < countOf rows ip m) : ip ∈ rateIPs rows := by
  rw [countOf, List.length_pos] at h
  obtain ⟨e, he⟩ := List.exists_mem_of_ne_nil _ h
  rw [List.mem_filter] at he
  have h2 := he.2
  simp only [Bool.and_eq_true, beq_iff_eq] at h2
  rw [rateIPs, List.mem_dedup, List.mem_map]
  refine ⟨e, ?_, h2.1.2⟩
  rw [List.mem_filter]
  exact ⟨he.1, h2.1.1⟩

theorem rateRecord_SrcIP (ip : String) (m : ℤ) (c mean : ℚ) (std z : ℝ) :
    (rateRecord ip m c mean std z).SrcIP = ip := rfl

theorem rateRecord_Minute (ip : String) (m : ℤ) (c mean : ℚ) (std z : ℝ) :
    (rateRecord ip m c mean std z).Minute = m := rfl

theorem mem_ratePerIP (rows : List Event) (ip : String) (a : Anomaly) :
    a ∈ ratePerIP rows ip ↔
      ∃ m ∈ minutesOf rows ip,
        ¬ (countOf rows ip m : ℚ) < 10 ∧
        ((0 < ipStd rows ip ∧
           (2 ≤ (((countOf rows ip m : ℚ) : ℝ) - ((ipMean rows ip : ℚ) : ℝ)) / ipStd rows ip ∨
            (max (⌈(5 / 2 : ℚ) * ipMean rows ip⌉ : ℚ) 10) ≤ (countOf rows ip m : ℚ)) ∧
           a = rateRecord ip m (countOf rows ip m : ℚ) (ipMean rows ip) (ipStd rows ip)
                 ((((countOf rows ip m : ℚ) : ℝ) - ((ipMean rows ip : ℚ) : ℝ)) / ipStd rows ip)) ∨
         (¬ 0 < ipStd rows ip ∧
           (0 < ipMean rows ip ∧ (5 / 2 : ℚ) * ipMean rows ip ≤ (countOf rows ip m : ℚ) ∧
             (10 : ℚ) ≤ (countOf rows ip m : ℚ)) ∧
           a = rateRecord ip m (countOf rows ip m : ℚ) (ipMean rows ip) (ipStd rows ip) 3)) := by
  simp only [ratePerIP, List.mem_filterMap]
  constructor
  · rintro ⟨m, hm, hg⟩
    refine ⟨m, hm, ?_⟩
    split at hg <;> rename_i h10
    · exact absurd hg (by simp)
    · refine ⟨h10, ?_⟩
      split at hg <;> rename_i hstd
      · split at hg <;> rename_i hD
        · rw [Option.some.injEq] at hg
          exact Or.inl ⟨hstd, hD, hg.symm⟩
        · exact absurd hg (by simp)
      · split at hg <;> rename_i hE
        · rw [Option.some.injEq] at hg
          exact Or.inr ⟨hstd, hE, hg.symm⟩
        · exact absurd hg (by simp)
  · rintro ⟨m, hm, h10, hbr⟩
    refine ⟨m, hm, ?_⟩
    rcases hbr with ⟨hstd, hD, ha⟩ | ⟨hstd, hE, ha⟩
    · rw [if_neg h10, if_pos hstd, if_pos hD, ha]
    · rw [if_neg h10, if_neg hstd, if_pos hE, ha]

theorem DetectRateSpikes_zero (rows : List Event) (ipOrder : List String) :
    DetectRateSpikes rows 0 ipOrder =
      (ipOrder.flatMap (ratePerIP rows)).insertionSort rateGE := by
  rw [DetectRateSpikes, if_neg (by simp)]

/-- The flagging condition of claim C3, stated with the IP's population
baseline (`ipMean`, `ipStd`) and the minute's count: the count clears the
absolute floor 10 and either `std > 0` with `z ≥ 2` or
`c ≥ max(ceil(2.5·mean), 10)`, or `std = 0` with `mean > 0` and
`c ≥ 2.5·mean`. -/
def spikeCond (rows : List Event) (ip : String) (m : ℤ) : Prop :=
  (10 : ℚ) ≤ (countOf rows ip m : ℚ) ∧
    ((0 < ipStd rows ip ∧
       (2 ≤ (((countOf rows ip m : ℚ) : ℝ) - ((ipMean rows ip : ℚ) : ℝ)) / ipStd rows ip ∨
        (max (⌈(5 / 2 : ℚ) * ipMean rows ip⌉ : ℚ) 10) ≤ (countOf rows ip m : ℚ))) ∨
     (ipStd rows ip = 0 ∧ 0 < ipMean rows ip ∧
       (5 / 2 : ℚ) * ipMean rows ip ≤ (countOf rows ip m : ℚ)))

/-- C3.  For every row set and every iteration order of the per-IP map,
`DetectRateSpikes` (with no truncation, `keepTop = 0`) emits an anomaly
for `(ip, m)` exactly when `spikeCond` holds; in particular a count below
the absolute floor 10 is never flagged. -/
theorem rate_spike_flag_iff (rows : List Event) (ipOrder : List String)
    (hord : ipOrder.Perm (rateIPs rows)) (ip : String) (m : ℤ) :
    (∃ a ∈ DetectRateSpikes rows 0 ipOrder, a.SrcIP = ip ∧ a.Minute = m) ↔
      spikeCond rows ip m := by
  rw [DetectRateSpikes_zero]
  constructor
  · rintro ⟨a, ha, hip, hm⟩
    rw [List.mem_insertionSort, List.mem_flatMap] at ha
    obtain ⟨ip', hip', ha⟩ := ha
    rw [mem_ratePerIP] at ha
    obtain ⟨m', hm', h10, hbr⟩ := ha
    have hfields : a.SrcIP = ip' ∧ a.Minute = m' := by
      rcases hbr with ⟨_, _, ha⟩ | ⟨_, _, ha⟩ <;> rw [ha] <;> exact ⟨rfl, rfl⟩
    have hipeq : ip' = ip := hfields.1.symm.trans hip
    have hmeq : m' = m := hfields.2.symm.trans hm
    rw [spikeCond, ← hipeq, ← hmeq]
    refine ⟨not_lt.mp h10, ?_⟩
    rcases hbr with ⟨hstd, hD, _⟩ | ⟨hstd, hE, _⟩
    · exact Or.inl ⟨hstd, hD⟩
    · exact Or.inr ⟨ipStd_eq_zero_of_not_pos rows ip' hstd, hE.1, hE.2.1⟩
  · intro hc
    rw [spikeCond] at hc
    obtain ⟨h10, hbr⟩ := hc
    have hcpos : 0 < countOf rows ip m := by
      rcases Nat.eq_zero_or_pos (countOf rows ip m) with h0 | h
      · rw [h0] at h10
        norm_num at h10
      · exact h
    have hmm : m ∈ minutesOf rows ip := (mem_minutesOf_iff rows ip m).mpr hcpos
    have hipo : ip ∈ ipOrder := hord.mem_iff.mpr (countOf_pos_mem_rateIPs rows ip m hcpos)
    rcases hbr with ⟨hstd, hD⟩ | ⟨hstd0, hmean, hmul⟩
    · refine ⟨rateRecord ip m (countOf rows ip m : ℚ) (ipMean rows ip) (ipStd rows ip)
          ((((countOf rows ip m : ℚ) : ℝ) - ((ipMean rows ip : ℚ) : ℝ)) / ipStd rows ip),
        ?_, rfl, rfl⟩
      rw [List.mem_insertionSort, List.mem_flatMap]
      exact ⟨ip, hipo, (mem_ratePerIP rows ip _).mpr
        ⟨m, hmm, not_lt.mpr h10, Or.inl ⟨hstd, hD, rfl⟩⟩⟩
    · refine ⟨rateRecord ip m (countOf rows ip m : ℚ) (ipMean rows ip) (ipStd rows ip) 3,
        ?_, rfl, rfl⟩
      rw [List.mem_insertionSort, List.mem_flatMap]
      refine ⟨ip, hipo, (mem_ratePerIP rows ip _).mpr
        ⟨m, hmm, not_lt.mpr h10, Or.inr ⟨?_, ⟨hmean, hmul, h10⟩, rfl⟩⟩⟩
      rw [hstd0]
      exact lt_irrefl 0

/-- One IP with per-minute counts 10, 10, 10, 50 — the spec's worked
rate-spike example (minutes 1..4, i.e. instants 60..240). -/
def exSpike : List Event :=
  (List.replicate 10 ⟨60, "5.5.5.5", "x", "GET", "/x", 0, 0, ""⟩) ++
  (List.replicate 10 ⟨120, "5.5.5.5", "x", "GET", "/x", 0, 0, ""⟩) ++
  (List.replicate 10 ⟨180, "5.5.5.5", "x", "GET", "/x", 0, 0, ""⟩) ++
  (List.replicate 50 ⟨240, "5.5.5.5", "x", "GET", "/x", 0, 0, ""⟩)

theorem exSpike_counts : ipCounts exSpike "5.5.5.5" = [10, 10, 10, 50] := by
  have hmins : minutesOf exSpike "5.5.5.5" = [60, 120, 180, 240] := by decide
  have hc1 : countOf exSpike "5.5.5.5" 60 = 10 := by decide
  have hc2 : countOf exSpike "5.5.5.5" 120 = 10 := by decide
  have hc3 : countOf exSpike "5.5.5.5" 180 = 10 := by decide
  have hc4 : countOf exSpike "5.5.5.5" 240 = 50 := by decide
  rw [ipCounts, hmins]
  simp only [List.map_cons, List.map_nil, hc1, hc2, hc3, hc4]
  norm_num

theorem exSpike_mean : ipMean exSpike "5.5.5.5" = 20 := by
  rw [ipMean, exSpike_counts, meanQ, if_neg (by simp)]
  simp only [List.sum_cons, List.sum_nil, List.length_cons, List.length_nil]
  norm_num

theorem exSpike_std_pos : 0 < ipStd exSpike "5.5.5.5" := by
  rw [ipStd, Real.sqrt_pos]
  have hvar : varQ (ipCounts exSpike "5.5.5.5") = 300 := by
    have hm : meanQ (ipCounts exSpike "5.5.5.5") = 20 := by
      rw [← ipMean, exSpike_mean]
    rw [varQ, if_neg (by rw [exSpike_counts]; simp), hm, exSpike_counts]
    simp only [List.map_cons, List.map_nil, List.sum_cons, List.sum_nil,
      List.length_cons, List.length_nil]
    norm_num
  rw [hvar]
  norm_num

/-- Witness for C3 at the spec's example: with counts `[10,10,10,50]` the
minute with count 50 satisfies the flagging condition (via the multiplier
rule, since `z = √3 < 2`) and an anomaly for it is emitted. -/
theorem rate_spike_flag_iff_witness :
    (["5.5.5.5"].Perm (rateIPs exSpike)) ∧ spikeCond exSpike "5.5.5.5" 240 ∧
    ∃ a ∈ DetectRateSpikes exSpike 0 ["5.5.5.5"], a.SrcIP = "5.5.5.5" ∧ a.Minute = 240 := by
  have hperm : (["5.5.5.5"] : List String).Perm (rateIPs exSpike) := by decide
  have hcount : countOf exSpike "5.5.5.5" 240 = 50 := by decide
  have hcond : spikeCond exSpike "5.5.5.5" 240 := by
    rw [spikeCond]
    refine ⟨by rw [hcount]; norm_num, Or.inl ⟨exSpike_std_pos, Or.inr ?_⟩⟩
    rw [hcount, exSpike_mean]
    rw [show ((5 / 2 : ℚ) * 20) = ((50 : ℤ) : ℚ) by norm_num, Int.ceil_intCast]
    norm_num
  exact ⟨hperm, hcond,
    (rate_spike_flag_iff exSpike ["5.5.5.5"] hperm "5.5.5.5" 240).mpr hcond⟩

theorem rateRecord_Confidence (ip : String) (m : ℤ) (c mean : ℚ) (std z : ℝ) :
    (rateRecord ip m c mean std z).Confidence = round2R (rateConf std z) := rfl

/-- The z value named by claim C1: `(c − mean)/std` for the IP's baseline
when its std is positive, and the pseudo-z `3.0` when it is zero. -/
noncomputable def specZ (rows : List Event) (ip : String) (m : ℤ) : ℝ :=
  if 0 < ipStd rows ip
  then (((countOf rows ip m : ℚ) : ℝ) - ((ipMean rows ip : ℚ) : ℝ)) / ipStd rows ip
  else 3

/-- C1.  Every anomaly emitted by `DetectRateSpikes` carries exactly the
confidence `min(1, 1 − e^(−z/3))` rounded to two decimals, with `z` as in
`specZ`; no other adjustment reaches an emitted record (the `std == 0`
code path, whose 0.8 floor would apply, is unreachable because identical
per-minute counts can never satisfy `c ≥ 2.5·mean`). -/
theorem rate_confidence_formula (rows : List Event) (keepTop : ℤ) (ipOrder : List String) :
    (DetectRateSpikes rows keepTop ipOrder).map (fun a => a.Confidence) =
      (DetectRateSpikes rows keepTop ipOrder).map
        (fun a => round2R (min 1 (1 - Real.exp (-(specZ rows a.SrcIP a.Minute) / 3)))) := by
  apply List.map_congr_left
  intro a ha
  have hb : a ∈ ipOrder.flatMap (ratePerIP rows) := by
    rw [← List.mem_insertionSort rateGE]
    simp only [DetectRateSpikes] at ha
    split at ha
    · exact List.mem_of_mem_take ha
    · exact ha
  obtain ⟨ip, _, ha2⟩ := List.mem_flatMap.mp hb
  rw [mem_ratePerIP] at ha2
  obtain ⟨m, hm, _, hbr⟩ := ha2
  rcases hbr with ⟨hstd, _, haeq⟩ | ⟨hstd, hE, _⟩
  · subst haeq
    rw [rateRecord_Confidence, rateRecord_SrcIP, rateRecord_Minute]
    rw [show specZ rows ip m =
        (((countOf rows ip m : ℚ) : ℝ) - ((ipMean rows ip : ℚ) : ℝ)) / ipStd rows ip
      from if_pos hstd]
    have hexp : 0 < Real.exp
        (-((((countOf rows ip m : ℚ) : ℝ) - ((ipMean rows ip : ℚ) : ℝ)) / ipStd rows ip) / 3) :=
      Real.exp_pos _
    simp only [rateConf]
    rw [if_neg (fun hand => hstd.ne' hand.1), if_neg (by intro hgt; linarith)]
    rw [min_eq_right (by linarith)]
  · exfalso
    have hstd0 : ipStd rows ip = 0 := ipStd_eq_zero_of_not_pos rows ip hstd
    have hvar0 : varQ (ipCounts rows ip) = 0 := varQ_eq_zero_of_ipStd_eq_zero rows ip hstd0
    have hcmem : ((countOf rows ip m : ℚ)) ∈ ipCounts rows ip := by
      rw [ipCounts]
      exact List.mem_map_of_mem _ hm
    have hceq : (countOf rows ip m : ℚ) = meanQ (ipCounts rows ip) :=
      varQ_zero_all_eq_mean (ipCounts rows ip) hvar0 _ hcmem
    obtain ⟨hmean, hmul, _⟩ := hE
    rw [ipMean] at hmean hmul
    rw [← hceq] at hmean hmul
    linarith

/-- A three-line input: one aggregating line (IP `A`), one line whose
timestamp does not parse (IP `B`), and one line with a single column. -/
def linesMix : List String := ["t60\tA\tx", "bad\tB\tx", "zz"]

/-- Witness for C10 on `linesMix`: all three lines are counted, but only
`A` — the IP of the one line with two columns and a parsing timestamp —
enters the distinct-source count; `B` contributes nothing. -/
theorem unique_ips_parseable_only_witness :
    (ParseTSV exParseTS (some linesMix) 0).err = none ∧
    (ParseTSV exParseTS (some linesMix) 0).summary.uniqueIPs =
      (qualSrcs exParseTS (processedOf 0 0 ((some linesMix).getD []))).dedup.length ∧
    (ParseTSV exParseTS (some linesMix) 0).summary.lines = countedOf 0 ((some linesMix).getD []) 0 ∧
    (ParseTSV exParseTS (some linesMix) 0).summary.uniqueIPs = 1 ∧
    (ParseTSV exParseTS (some linesMix) 0).summary.lines = 3 := by
  have herr : (ParseTSV exParseTS (some linesMix) 0).err = none := by decide
  have h := unique_ips_parseable_only exParseTS (some linesMix) 0 herr
  exact ⟨herr, h.1, h.2, by decide, by decide⟩

/-- Witness for C6 on a one-line input that does not parse: both `Start`
and `End` come back as the zero value. -/
theorem summary_start_le_end_witness :
    (∀ l ∈ processedOf 0 0 ((some ["zz"] : Option (List String)).getD []),
      ¬ lineParses exParseTS l) ∧
    (ParseTSV exParseTS (some ["zz"]) 0).summary.startT = 0 ∧
    (ParseTSV exParseTS (some ["zz"]) 0).summary.endT = 0 := by
  have hnp : ∀ l ∈ processedOf 0 0 ((some ["zz"] : Option (List String)).getD []),
      ¬ lineParses exParseTS l := by decide
  exact ⟨hnp, (summary_start_le_end exParseTS (some ["zz"]) 0).2 hnp⟩

/-- Witness for C8 on an unopenable source: the error is reported and the
summary is the zero value. -/
theorem parse_tsv_error_iff_witness :
    (ParseTSV exParseTS none 0).err ≠ none ∧
    (ParseTSV exParseTS none 0).summary = zeroSummary := by
  have h := parse_tsv_error_iff exParseTS none 0
  have herr : (ParseTSV exParseTS none 0).err ≠ none := h.1.mpr (Or.inl rfl)
  exact ⟨herr, (h.2 herr).1⟩
